import Mathlib

/-!
Shallow embedding of the two-level adaptive-training branch predictor
(Yeh/Patt style) simulator: automaton logic, the three history-register
tables (IHRT / HHRT / AHRT), the pattern table, the two-level predictor
composition, the statistics record and the trace-driven harness loop.

Machine integers are modelled as Nat with explicit reductions modulo
2^16 (uint16_t history registers), 2^32 (uint32_t masks and sizes) and
2^64 (uint64_t program counters) at the points where the C++ code
truncates or wraps.
-/

namespace BP

/-! ### Definitions: data model and operations, translated from the C++ source -/

/-- Outcome of a single dynamic branch (enum class Outcome). -/
inductive Outcome where
  | notTaken
  | taken

deriving DecidableEq

/-- The four finite-state machine kinds (enum class AutomatonType). -/
inductive AutomatonType where
  | lastTime
  | a2
  | a3
  | a4

deriving DecidableEq

/-- Initial state S_0 for each automaton (automaton_init_state). -/
def automaton_init_state : AutomatonType → Nat
  | .lastTime => 1
  | _ => 3

/-- Prediction function A(S_c) (automaton_predict). -/
def automaton_predict (t : AutomatonType) (state : Nat) : Bool :=
  match t with
  | .lastTime => (state &&& 1) != 0
  | _ => decide (2 ≤ state)

/-- State transition function (automaton_next): LastTime overwrites,
counter kinds saturate at 0 and 3. -/
def automaton_next (t : AutomatonType) (state : Nat) (o : Outcome) : Nat :=
  match t with
  | .lastTime => if o = .taken then 1 else 0
  | _ =>
    if o = .taken then (if state < 3 then state + 1 else state)
    else (if 0 < state then state - 1 else state)

/-- PatternTable: 2^k automaton states indexed by masked history. The
entry list length is (1u << k) computed in uint32, the mask is
(1u << k) - 1u in uint32. -/
structure PatternTable where
  history_bits : Nat
  mask : Nat
  automaton : AutomatonType
  entries : List Nat

deriving DecidableEq

/-- PatternTable constructor: 2^k entries, all at the automaton's
initial state. -/
def PatternTable.init (k : Nat) (a : AutomatonType) : PatternTable :=
  { history_bits := k
    mask := (2 ^ k - 1) % 2 ^ 32
    automaton := a
    entries := List.replicate (2 ^ k % 2 ^ 32) (automaton_init_state a) }

/-- Index computation shared by predict and update: the uint16_t history
argument masked with the table's uint32_t mask. -/
def PatternTable.index (pt : PatternTable) (history : Nat) : Nat :=
  (history % 2 ^ 16) &&& pt.mask

/-- PatternTable::predict. -/
def PatternTable.predict (pt : PatternTable) (history : Nat) : Bool :=
  automaton_predict pt.automaton (pt.entries.getD (pt.index history) 0)

/-- PatternTable::update. -/
def PatternTable.update (pt : PatternTable) (history : Nat) (o : Outcome) :
    PatternTable :=
  let idx := pt.index history
  { pt with
    entries := pt.entries.set idx (automaton_next pt.automaton (pt.entries.getD idx 0) o) }

/-- PatternTable::num_entries. -/
def PatternTable.num_entries (pt : PatternTable) : Nat :=
  pt.entries.length

/-- Default history for a k-bit shift register: (1u << k) - 1u stored in
a uint16_t field (all ones, Taken bias). -/
def init_history_val (k : Nat) : Nat :=
  (2 ^ k - 1) % 2 ^ 16

/-- IHRT: ideal history register table, an unordered map from PC to the
current history, modelled as an association list whose keys are distinct
(set replaces in place, so the length is the distinct-PC count). -/
structure IHRT where
  history_bits : Nat
  init_history : Nat
  table : List (Nat × Nat)

deriving DecidableEq

/-- IHRTTable constructor. -/
def IHRT.init (k : Nat) : IHRT :=
  { history_bits := k, init_history := init_history_val k, table := [] }

/-- Map-style insertion: overwrite the binding of pc when present,
append it otherwise (mirrors unordered_map operator[] assignment). -/
def listInsert : List (Nat × Nat) → Nat → Nat → List (Nat × Nat)
  | [], pc, h => [(pc, h)]
  | (p, v) :: rest, pc, h =>
    if p = pc then (pc, h) :: rest else (p, v) :: listInsert rest pc h

/-- IHRTTable::get: find without inserting, defaulting to the initial
all-ones history. -/
def IHRT.get (st : IHRT) (pc : Nat) : Nat :=
  match st.table.lookup pc with
  | some h => h
  | none => st.init_history

/-- IHRTTable::set (history parameter is a uint16_t). -/
def IHRT.set (st : IHRT) (pc : Nat) (history : Nat) : IHRT :=
  { st with table := listInsert st.table pc (history % 2 ^ 16) }

/-- IHRTTable::capacity_entries: current number of distinct PCs. -/
def IHRT.capacity_entries (st : IHRT) : Nat :=
  st.table.length

/-- HHRT: hashed (direct-mapped, tagless) history table. mask is
static_cast of (entries - 1) to uint32_t, which wraps when entries = 0. -/
structure HHRT where
  entries : Nat
  mask : Nat
  init_history : Nat
  hist : List Nat

deriving DecidableEq

/-- HHRTTable constructor. -/
def HHRT.init (entries k : Nat) : HHRT :=
  { entries := entries
    mask := ((entries + 2 ^ 32) - 1) % 2 ^ 32
    init_history := init_history_val k
    hist := List.replicate entries (init_history_val k) }

/-- HHRTTable::index: (pc >> 2) & mask. -/
def HHRT.index (st : HHRT) (pc : Nat) : Nat :=
  (pc >>> 2) &&& st.mask

/-- HHRTTable::get. -/
def HHRT.get (st : HHRT) (pc : Nat) : Nat :=
  st.hist.getD (st.index pc) 0

/-- HHRTTable::set (no collision check, by design). -/
def HHRT.set (st : HHRT) (pc : Nat) (history : Nat) : HHRT :=
  { st with hist := st.hist.set (st.index pc) (history % 2 ^ 16) }

/-- HHRTTable::capacity_entries. -/
def HHRT.capacity_entries (st : HHRT) : Nat :=
  st.entries

/-- One line of the associative table: valid bit, tag, history. -/
structure AHRTEntry where
  valid : Bool
  tag : Nat
  history : Nat

deriving DecidableEq

/-- Out-of-range placeholder used with getD (never reached on
well-formed states). -/
def e0 : AHRTEntry := { valid := false, tag := 0, history := 0 }

/-- AHRT: set-associative history table. sets = entries / ways with
truncating integer division, set_index_bits is the least b with
2^b ≥ sets (the constructor's while loop). -/
structure AHRT where
  entries : Nat
  ways : Nat
  sets : Nat
  init_history : Nat
  set_index_bits : Nat
  table : List (List AHRTEntry)
  nextVictim : List Nat

deriving DecidableEq

/-- The constructor's while loop computing the least b with 2^b >= sets
(fuelled structural recursion so the kernel can evaluate it). -/
def log2_ceil_loop : Nat → Nat → Nat → Nat
  | 0, _, b => b
  | fuel + 1, sets, b => if 2 ^ b < sets then log2_ceil_loop fuel sets (b + 1) else b

/-- log2(sets) as computed at AHRT construction. -/
def set_index_bits_of (sets : Nat) : Nat := log2_ceil_loop sets sets 0

/-- AHRTTable constructor: all lines invalid with tag 0 and the all-ones
initial history; all round-robin cursors at 0. -/
def AHRT.init (entries ways k : Nat) : AHRT :=
  let s := entries / ways
  { entries := entries
    ways := ways
    sets := s
    init_history := init_history_val k
    set_index_bits := set_index_bits_of s
    table := List.replicate s
      (List.replicate ways { valid := false, tag := 0, history := init_history_val k })
    nextVictim := List.replicate s 0 }

/-- AHRTTable::set_index: (pc >> 2) & (sets - 1), where the int sets - 1
is converted to uint64 (wrapping when sets = 0). -/
def AHRT.set_index (st : AHRT) (pc : Nat) : Nat :=
  (pc >>> 2) &&& (((st.sets + 2 ^ 64) - 1) % 2 ^ 64)

/-- AHRTTable::tag_for: pc >> (2 + set_index_bits). -/
def AHRT.tag_for (st : AHRT) (pc : Nat) : Nat :=
  pc >>> (2 + st.set_index_bits)

/-- The hit scan of AHRTTable::access: index of the first way whose
line is valid with a matching tag. -/
def findHit (tag : Nat) : List AHRTEntry → Option Nat
  | [] => none
  | e :: rest =>
    if e.valid && e.tag == tag then some 0
    else (findHit tag rest).map (· + 1)

/-- AHRTTable::access: returns the updated table together with the set
and way of the resolved line (the C++ returns a reference to that
line). On a miss the round-robin victim is marked valid and retagged,
its history deliberately left unchanged, and the cursor advances. -/
def AHRT.access (st : AHRT) (pc : Nat) : AHRT × Nat × Nat :=
  let si := st.set_index pc
  let tag := st.tag_for pc
  let row := st.table.getD si []
  match findHit tag row with
  | some w => (st, si, w)
  | none =>
    let victim := st.nextVictim.getD si 0
    let e := row.getD victim e0
    let e' := { e with valid := true, tag := tag }
    ({ st with
        table := st.table.set si (row.set victim e')
        nextVictim := st.nextVictim.set si ((victim + 1) % st.ways) },
      si, victim)

/-- AHRTTable::get: access then read the resolved line's history. -/
def AHRT.get (st : AHRT) (pc : Nat) : Nat × AHRT :=
  let r := st.access pc
  (((r.1.table.getD r.2.1 []).getD r.2.2 e0).history, r.1)

/-- AHRTTable::set: access then overwrite the resolved line's history
(history parameter is a uint16_t). -/
def AHRT.set (st : AHRT) (pc : Nat) (history : Nat) : AHRT :=
  let r := st.access pc
  let row := r.1.table.getD r.2.1 []
  { r.1 with
    table := r.1.table.set r.2.1
      (row.set r.2.2 { row.getD r.2.2 e0 with history := history % 2 ^ 16 }) }

/-- AHRTTable::capacity_entries: the fixed line count. -/
def AHRT.capacity_entries (st : AHRT) : Nat :=
  st.entries

/-- enum class HRTKind. -/
inductive HRTKind where
  | ahrt
  | hhrt
  | ihrt

deriving DecidableEq

/-- The virtual HistoryTable slot of TwoLevelATPredictor, as a closed
sum of the three concrete tables. get returns the value together with
the possibly-updated table (AHRT access mutates on a miss; the other
two variants read without writing). -/
inductive HRTState where
  | ihrt (st : IHRT)
  | hhrt (st : HHRT)
  | ahrt (st : AHRT)

deriving DecidableEq

/-- Dispatch of HistoryTable::get. -/
def HRTState.get : HRTState → Nat → Nat × HRTState
  | .ihrt st, pc => (st.get pc, .ihrt st)
  | .hhrt st, pc => (st.get pc, .hhrt st)
  | .ahrt st, pc =>
    let r := st.get pc
    (r.1, .ahrt r.2)

/-- Dispatch of HistoryTable::set. -/
def HRTState.set : HRTState → Nat → Nat → HRTState
  | .ihrt st, pc, h => .ihrt (st.set pc h)
  | .hhrt st, pc, h => .hhrt (st.set pc h)
  | .ahrt st, pc, h => .ahrt (st.set pc h)

/-- Dispatch of HistoryTable::capacity_entries. -/
def HRTState.capacity_entries : HRTState → Nat
  | .ihrt st => st.capacity_entries
  | .hhrt st => st.capacity_entries
  | .ahrt st => st.capacity_entries

/-- ATConfig record. -/
structure ATConfig where
  name : String
  hrt_kind : HRTKind
  hrt_entries : Nat
  hrt_ways : Nat
  history_bits : Nat
  automaton : AutomatonType

/-- TwoLevelATPredictor state: k, the uint32_t mask (1u << k) - 1u, the
pattern table and the history table. -/
structure Predictor where
  history_bits : Nat
  mask : Nat
  pt : PatternTable
  hrt : HRTState

deriving DecidableEq

/-- TwoLevelATPredictor constructor. -/
def mkPredictor (cfg : ATConfig) : Predictor :=
  { history_bits := cfg.history_bits
    mask := (2 ^ cfg.history_bits - 1) % 2 ^ 32
    pt := PatternTable.init cfg.history_bits cfg.automaton
    hrt :=
      match cfg.hrt_kind with
      | .ihrt => .ihrt (IHRT.init cfg.history_bits)
      | .ahrt => .ahrt (AHRT.init cfg.hrt_entries cfg.hrt_ways cfg.history_bits)
      | .hhrt => .hhrt (HHRT.init cfg.hrt_entries cfg.history_bits) }

/-- TwoLevelATPredictor::predict: read the history, index the pattern
table. Returns the prediction and the (possibly AHRT-mutated) state. -/
def Predictor.predict (p : Predictor) (pc : Nat) : Bool × Predictor :=
  let r := p.hrt.get pc
  (p.pt.predict r.1, { p with hrt := r.2 })

/-- TwoLevelATPredictor::update: pattern table updated at the pre-shift
history, then the shifted-and-masked history (cast to uint16_t) written
back. -/
def Predictor.update (p : Predictor) (pc : Nat) (o : Outcome) : Predictor :=
  let r := p.hrt.get pc
  let old_h := r.1
  let new_h := (((old_h <<< 1) ||| (if o = .taken then 1 else 0)) &&& p.mask) % 2 ^ 16
  { p with
    pt := p.pt.update old_h o
    hrt := r.2.set pc new_h }

/-- TwoLevelATPredictor::hardware_cost_bits. -/
def Predictor.hardware_cost_bits (p : Predictor) : Nat :=
  p.hrt.capacity_entries * p.history_bits + p.pt.num_entries * 2

/-- Stats: total and correct counters (uint64_t). accuracy is computed
in double precision in the source; it is modelled here as the exact
rational quotient, with the same total == 0 guard. -/
structure Stats where
  total : Nat
  correct : Nat

deriving DecidableEq

/-- Stats::accuracy. -/
def Stats.accuracy (s : Stats) : ℚ :=
  if s.total = 0 then 0 else (s.correct : ℚ) / (s.total : ℚ)

/-- One iteration of the main simulation loop for one predictor:
predict, score, then update. Accumulates the prediction list for
inspection. -/
def stepEvent (a : Predictor × Stats × List Bool) (ev : Nat × Outcome) :
    Predictor × Stats × List Bool :=
  let p := a.1
  let s := a.2.1
  let r := p.predict ev.1
  let correct := (r.1 && decide (ev.2 = .taken)) || (!r.1 && decide (ev.2 = .notTaken))
  ( r.2.update ev.1 ev.2,
    { total := s.total + 1, correct := s.correct + if correct then 1 else 0 },
    a.2.2 ++ [r.1] )

/-- The main loop over a trace, as run for each configuration. -/
def runTrace (p : Predictor) (evs : List (Nat × Outcome)) :
    Predictor × Stats × List Bool :=
  evs.foldl stepEvent (p, { total := 0, correct := 0 }, [])

/-- A single predictor call, for stating state invariants over
arbitrary interleavings of the public operations. -/
inductive Event where
  | predictEv (pc : Nat)
  | updateEv (pc : Nat) (o : Outcome)

/-- Apply one public operation to the predictor state. -/
def applyEvent (p : Predictor) : Event → Predictor
  | .predictEv pc => (p.predict pc).2
  | .updateEv pc o => p.update pc o

/-- Apply a sequence of public operations. -/
def runEvents (p : Predictor) (evs : List Event) : Predictor :=
  evs.foldl applyEvent p

/-- Structural invariants the AHRT constructor establishes for positive
parameters: positive geometry, consistent lengths, in-range cursors. -/
def AHRT.wf (st : AHRT) : Prop :=
  0 < st.ways ∧ 0 < st.sets ∧ st.sets ≤ 2 ^ 64 ∧
  st.table.length = st.sets ∧
  st.nextVictim.length = st.sets ∧
  (∀ row ∈ st.table, row.length = st.ways) ∧
  (∀ v ∈ st.nextVictim, v < st.ways)

/-- All histories stored in an IHRT are below B. -/
def IHRT.histLt (st : IHRT) (B : Nat) : Prop :=
  ∀ x ∈ st.table, x.2 < B

/-- All histories stored in an HHRT are below B. -/
def HHRT.histLt (st : HHRT) (B : Nat) : Prop :=
  ∀ h ∈ st.hist, h < B

/-- All histories stored in an AHRT (and its install default) are
below B. -/
def AHRT.histLt (st : AHRT) (B : Nat) : Prop :=
  st.init_history < B ∧ ∀ row ∈ st.table, ∀ e ∈ row, e.history < B

/-- All histories stored in a history table are below B. -/
def HRTState.histLt : HRTState → Nat → Prop
  | .ihrt st, B => st.histLt B
  | .hhrt st, B => st.histLt B
  | .ahrt st, B => st.histLt B

/-- Invariant established by the constructor and preserved by predict
and update: stable k and mask, all stored histories below 2^k. -/
def Predictor.inv (p : Predictor) (k : Nat) : Prop :=
  p.history_bits = k ∧ p.mask = (2 ^ k - 1) % 2 ^ 32 ∧ p.hrt.histLt (2 ^ k)

/-- Exhaustive-discipline configuration with k = 2 and the 2-bit counter
automaton, as in the end-to-end scenario. -/
def cfgC3 : ATConfig :=
  { name := "AT_IHRT_2_A2", hrt_kind := .ihrt, hrt_entries := 0, hrt_ways := 0,
    history_bits := 2, automaton := .a2 }

/-- The end-to-end trace (A,T),(A,T),(A,N),(A,T) with A = 64. -/
def runC3 : Predictor × Stats × List Bool :=
  runTrace (mkPredictor cfgC3)
    [(64, .taken), (64, .taken), (64, .notTaken), (64, .taken)]

/-- The same trace truncated before the final event. -/
def runC3pre : Predictor × Stats × List Bool :=
  runTrace (mkPredictor cfgC3)
    [(64, .taken), (64, .taken), (64, .notTaken)]

/-- Configuration used to witness C5: associative table, k = 4. -/
def cfgC5 : ATConfig :=
  { name := "AT_AHRT_8_4_A2", hrt_kind := .ahrt, hrt_entries := 8, hrt_ways := 4,
    history_bits := 4, automaton := .a2 }

instance (st : AHRT) : Decidable st.wf := by
  unfold AHRT.wf
  exact inferInstance

/-- Projection of the AHRT component of a history-table state. -/
def ahrtOf : HRTState → Option AHRT
  | .ahrt st => some st
  | _ => none

/-- Associative configuration (4 lines, 4 ways, k = 2) used to exhibit
predict-side mutation of the associative table. -/
def cfgC1 : ATConfig :=
  { name := "AT_AHRT_4_4_A2", hrt_kind := .ahrt, hrt_entries := 4, hrt_ways := 4,
    history_bits := 2, automaton := .a2 }

/-- Fresh 2-set, 4-way associative table with k = 4. -/
def stC4a : AHRT := AHRT.init 8 4 4

/-- The same table after inserting four distinct addresses 0, 8, 16, 24
(tags 0..3) of set 0 with histories 1..4: the set is full and the
round-robin cursor is back at way 0. -/
def stC4 : AHRT := (((stC4a.set 0 1).set 8 2).set 16 3).set 24 4

/-- Hashed configuration (4 slots, k = 3) used to witness the history
bound invariant. -/
def cfgC8 : ATConfig :=
  { name := "AT_HHRT_4_3_A2", hrt_kind := .hhrt, hrt_entries := 4, hrt_ways := 1,
    history_bits := 3, automaton := .a2 }

/-! ### Theorems -/

theorem getD_set_self {α : Type} (l : List α) (i : Nat) (x d : α)
    (h : i < l.length) : (l.set i x).getD i d = x := by
  induction l generalizing i with
  | nil => simp at h
  | cons a t ih =>
    cases i with
    | zero => rfl
    | succ j => simpa using ih j (by simpa using h)

theorem getD_set_ne {α : Type} (l : List α) (i j : Nat) (x d : α)
    (h : i ≠ j) : (l.set i x).getD j d = l.getD j d := by
  induction l generalizing i j with
  | nil => simp [List.set]
  | cons a t ih =>
    cases i with
    | zero =>
      cases j with
      | zero => exact absurd rfl h
      | succ m => rfl
    | succ n =>
      cases j with
      | zero => rfl
      | succ m => simpa using ih n m (fun hc => h (by simpa using hc))

theorem getD_replicate {α : Type} (n i : Nat) (x d : α) (h : i < n) :
    (List.replicate n x).getD i d = x := by
  induction n generalizing i with
  | zero => omega
  | succ m ih =>
    cases i with
    | zero => rfl
    | succ j =>
      rw [List.replicate_succ]
      exact ih j (by omega)

theorem mem_of_mem_set {α : Type} {l : List α} {i : Nat} {x a : α}
    (h : a ∈ l.set i x) : a ∈ l ∨ a = x := by
  induction l generalizing i with
  | nil => simp [List.set] at h
  | cons b t ih =>
    cases i with
    | zero =>
      rcases (List.mem_cons).1 h with h1 | h1
      · exact Or.inr h1
      · exact Or.inl (List.mem_cons_of_mem _ h1)
    | succ j =>
      rcases (List.mem_cons).1 h with h1 | h1
      · exact Or.inl (h1 ▸ List.mem_cons_self _ _)
      · rcases ih h1 with h2 | h2
        · exact Or.inl (List.mem_cons_of_mem _ h2)
        · exact Or.inr h2

theorem getD_mem {α : Type} (l : List α) (i : Nat) (d : α)
    (h : i < l.length) : l.getD i d ∈ l := by
  induction l generalizing i with
  | nil => simp at h
  | cons a t ih =>
    cases i with
    | zero => exact List.mem_cons_self _ _
    | succ j => exact List.mem_cons_of_mem _ (ih j (by simpa using h))

theorem findHit_some_lt {tag : Nat} {l : List AHRTEntry} {w : Nat}
    (h : findHit tag l = some w) : w < l.length := by
  induction l generalizing w with
  | nil => simp [findHit] at h
  | cons e rest ih =>
    by_cases hp : (e.valid && e.tag == tag) = true
    · rw [List.length_cons]
      simp [findHit, hp] at h
      omega
    · simp [findHit, hp] at h
      obtain ⟨w0, hw0, rfl⟩ := h
      have := ih hw0
      simpa using Nat.succ_lt_succ this

theorem findHit_none_pred {tag : Nat} {l : List AHRTEntry}
    (h : findHit tag l = none) : ∀ e ∈ l, (e.valid && e.tag == tag) = false := by
  induction l with
  | nil => intro e he; simp at he
  | cons a rest ih =>
    by_cases hp : (a.valid && a.tag == tag) = true
    · simp [findHit, hp] at h
    · intro e he
      rcases List.mem_cons.1 he with rfl | he'
      · simpa using hp
      · simp [findHit, hp] at h
        exact ih h e he'

theorem findHit_set_preserve {tag : Nat} (l : List AHRTEntry) (i : Nat)
    (x : AHRTEntry)
    (h : (x.valid && x.tag == tag) = ((l.getD i e0).valid && (l.getD i e0).tag == tag)) :
    findHit tag (l.set i x) = findHit tag l := by
  induction l generalizing i with
  | nil => simp
  | cons a rest ih =>
    cases i with
    | zero =>
      have h0 : (x.valid && x.tag == tag) = (a.valid && a.tag == tag) := h
      simp only [List.set]
      by_cases hp : (a.valid && a.tag == tag) = true
      · simp [findHit, hp, h0.trans hp]
      · have hx : (x.valid && x.tag == tag) = false := by
          rw [h0]; exact Bool.eq_false_iff.2 hp
        simp [findHit, hx, Bool.eq_false_iff.2 hp]
    | succ j =>
      have h' : (x.valid && x.tag == tag)
          = ((rest.getD j e0).valid && (rest.getD j e0).tag == tag) := h
      simp only [List.set]
      by_cases hp : (a.valid && a.tag == tag) = true
      · simp [findHit, hp]
      · simp [findHit, Bool.eq_false_iff.2 hp, ih j h']

theorem findHit_set_of_none {tag : Nat} (l : List AHRTEntry) (i : Nat)
    (x : AHRTEntry) (hn : findHit tag l = none) (hi : i < l.length)
    (hx : (x.valid && x.tag == tag) = true) :
    findHit tag (l.set i x) = some i := by
  induction l generalizing i with
  | nil => simp at hi
  | cons a rest ih =>
    by_cases hp : (a.valid && a.tag == tag) = true
    · simp [findHit, hp] at hn
    · have hrest : findHit tag rest = none := by
        simp [findHit, hp] at hn
        exact hn
      cases i with
      | zero => simp [List.set, findHit, hx]
      | succ j =>
        simp only [List.set]
        simp [findHit, Bool.eq_false_iff.2 hp,
          ih j hrest (by simpa using hi)]

theorem findHit_none_of_invalid {tag : Nat} {l : List AHRTEntry}
    (h : ∀ e ∈ l, e.valid = false) : findHit tag l = none := by
  induction l with
  | nil => rfl
  | cons a rest ih =>
    have ha : a.valid = false := h a (List.mem_cons_self _ _)
    simp [findHit, ha, ih fun e he => h e (List.mem_cons_of_mem _ he)]

theorem set_set {α : Type} (l : List α) (i : Nat) (a b : α) :
    (l.set i a).set i b = l.set i b := by
  induction l generalizing i with
  | nil => rfl
  | cons x t ih =>
    cases i with
    | zero => rfl
    | succ j => simp [List.set, ih j]

theorem set_index_lt (st : AHRT) (pc : Nat) (h1 : 0 < st.sets)
    (h2 : st.sets ≤ 2 ^ 64) : st.set_index pc < st.sets := by
  have hm : ((st.sets + 2 ^ 64) - 1) % 2 ^ 64 = st.sets - 1 := by
    have h64 : (2 : Nat) ^ 64 = 18446744073709551616 := by norm_num
    omega
  have hle : st.set_index pc ≤ st.sets - 1 := by
    unfold AHRT.set_index
    rw [hm]
    exact Nat.and_le_right
  omega

theorem wf_row_length {st : AHRT} (hwf : st.wf) {si : Nat}
    (hsi : si < st.sets) : (st.table.getD si []).length = st.ways := by
  exact hwf.2.2.2.2.2.1 _ (getD_mem _ _ _ (by rw [hwf.2.2.2.1]; exact hsi))

theorem wf_victim_lt {st : AHRT} (hwf : st.wf) {si : Nat}
    (hsi : si < st.sets) : st.nextVictim.getD si 0 < st.ways := by
  exact hwf.2.2.2.2.2.2 _ (getD_mem _ _ _ (by rw [hwf.2.2.2.2.1]; exact hsi))

theorem access_hit (st : AHRT) (pc w : Nat)
    (h : findHit (st.tag_for pc) (st.table.getD (st.set_index pc) []) = some w) :
    st.access pc = (st, st.set_index pc, w) := by
  have h' := h
  rw [List.getD_eq_getElem?_getD] at h'
  simp [AHRT.access, h']

theorem access_miss (st : AHRT) (pc : Nat)
    (h : findHit (st.tag_for pc) (st.table.getD (st.set_index pc) []) = none) :
    st.access pc =
      ({ st with
          table := st.table.set (st.set_index pc)
            ((st.table.getD (st.set_index pc) []).set
              (st.nextVictim.getD (st.set_index pc) 0)
              { (st.table.getD (st.set_index pc) []).getD
                  (st.nextVictim.getD (st.set_index pc) 0) e0 with
                  valid := true, tag := st.tag_for pc })
          nextVictim := st.nextVictim.set (st.set_index pc)
            ((st.nextVictim.getD (st.set_index pc) 0 + 1) % st.ways) },
        st.set_index pc, st.nextVictim.getD (st.set_index pc) 0) := by
  have h' := h
  rw [List.getD_eq_getElem?_getD] at h'
  simp [AHRT.access, h']

theorem get_hit (st : AHRT) (pc w : Nat)
    (h : findHit (st.tag_for pc) (st.table.getD (st.set_index pc) []) = some w) :
    st.get pc = (((st.table.getD (st.set_index pc) []).getD w e0).history, st) := by
  simp [AHRT.get, access_hit st pc w h]

theorem get_miss (st : AHRT) (pc : Nat) (hwf : st.wf)
    (h : findHit (st.tag_for pc) (st.table.getD (st.set_index pc) []) = none) :
    st.get pc =
      (((st.table.getD (st.set_index pc) []).getD
          (st.nextVictim.getD (st.set_index pc) 0) e0).history,
        (st.access pc).1) := by
  have hsi : st.set_index pc < st.sets := set_index_lt st pc hwf.2.1 hwf.2.2.1
  have hv : st.nextVictim.getD (st.set_index pc) 0 < st.ways := wf_victim_lt hwf hsi
  have hrow : (st.table.getD (st.set_index pc) []).length = st.ways := wf_row_length hwf hsi
  unfold AHRT.get
  rw [access_miss st pc h]
  simp only
  rw [getD_set_self _ _ _ _ (by rw [hwf.2.2.2.1]; exact hsi),
    getD_set_self _ _ _ _ (by rw [hrow]; exact hv)]

theorem access_fields (st : AHRT) (pc : Nat) :
    (st.access pc).1.ways = st.ways ∧ (st.access pc).1.sets = st.sets ∧
    (st.access pc).1.set_index_bits = st.set_index_bits ∧
    (st.access pc).1.init_history = st.init_history ∧
    (st.access pc).1.entries = st.entries := by
  cases hf : findHit (st.tag_for pc) (st.table.getD (st.set_index pc) []) with
  | some w => rw [access_hit st pc w hf]; exact ⟨rfl, rfl, rfl, rfl, rfl⟩
  | none => rw [access_miss st pc hf]; exact ⟨rfl, rfl, rfl, rfl, rfl⟩

theorem set_index_access (st : AHRT) (pc pc2 : Nat) :
    (st.access pc).1.set_index pc2 = st.set_index pc2 := by
  unfold AHRT.set_index
  rw [(access_fields st pc).2.1]

theorem tag_for_access (st : AHRT) (pc pc2 : Nat) :
    (st.access pc).1.tag_for pc2 = st.tag_for pc2 := by
  unfold AHRT.tag_for
  rw [(access_fields st pc).2.2.1]

theorem wf_access (st : AHRT) (pc : Nat) (hwf : st.wf) : (st.access pc).1.wf := by
  cases hf : findHit (st.tag_for pc) (st.table.getD (st.set_index pc) []) with
  | some w => rw [access_hit st pc w hf]; exact hwf
  | none =>
    have hsi : st.set_index pc < st.sets := set_index_lt st pc hwf.2.1 hwf.2.2.1
    rw [access_miss st pc hf]
    obtain ⟨hw, hs, hs64, htl, hvl, hrows, hvs⟩ := hwf
    refine ⟨hw, hs, hs64, by simpa using htl, by simpa using hvl, ?_, ?_⟩
    · intro row hrow
      rcases mem_of_mem_set hrow with hmem | rfl
      · exact hrows row hmem
      · rw [List.length_set]
        exact hrows _ (getD_mem _ _ _ (by rw [htl]; exact hsi))
    · intro v hvmem
      rcases mem_of_mem_set hvmem with hmem | rfl
      · exact hvs v hmem
      · exact Nat.mod_lt _ hw

/-- Histories are untouched by access (hit or miss), pointwise. -/
theorem access_history (st : AHRT) (pc : Nat) (hwf : st.wf) :
    ∀ s w, (((st.access pc).1.table.getD s []).getD w e0).history
      = ((st.table.getD s []).getD w e0).history := by
  intro s w
  cases hf : findHit (st.tag_for pc) (st.table.getD (st.set_index pc) []) with
  | some w2 => rw [access_hit st pc w2 hf]
  | none =>
    rw [access_miss st pc hf]
    simp only
    by_cases hs : st.set_index pc = s
    · subst hs
      have hsi : st.set_index pc < st.sets := set_index_lt st pc hwf.2.1 hwf.2.2.1
      rw [getD_set_self _ _ _ _ (by rw [hwf.2.2.2.1]; exact hsi)]
      by_cases hv : st.nextVictim.getD (st.set_index pc) 0 = w
      · subst hv
        rw [getD_set_self _ _ _ _
          (by rw [wf_row_length hwf hsi]; exact wf_victim_lt hwf hsi)]
      · rw [getD_set_ne _ _ _ _ _ hv]
    · rw [getD_set_ne _ _ _ _ _ hs]

/-- A second get right after a get hits the same line: same result, no
further state change. -/
theorem get_idem (st : AHRT) (pc : Nat) (hwf : st.wf) :
    (st.get pc).2.get pc = ((st.get pc).1, (st.get pc).2) := by
  cases hf : findHit (st.tag_for pc) (st.table.getD (st.set_index pc) []) with
  | some w =>
    rw [get_hit st pc w hf]
    exact get_hit st pc w hf
  | none =>
    have hsi : st.set_index pc < st.sets := set_index_lt st pc hwf.2.1 hwf.2.2.1
    have hv : st.nextVictim.getD (st.set_index pc) 0 < st.ways := wf_victim_lt hwf hsi
    have hrow : (st.table.getD (st.set_index pc) []).length = st.ways :=
      wf_row_length hwf hsi
    rw [get_miss st pc hwf hf]
    simp only
    have hstate : (st.get pc).2 = (st.access pc).1 := by rw [get_miss st pc hwf hf]
    set st' := (st.access pc).1 with hst'
    have hsets : st'.set_index pc = st.set_index pc := set_index_access st pc pc
    have htag : st'.tag_for pc = st.tag_for pc := tag_for_access st pc pc
    have hrow' : st'.table.getD (st.set_index pc) []
        = (st.table.getD (st.set_index pc) []).set
            (st.nextVictim.getD (st.set_index pc) 0)
            { (st.table.getD (st.set_index pc) []).getD
                (st.nextVictim.getD (st.set_index pc) 0) e0 with
                valid := true, tag := st.tag_for pc } := by
      rw [hst', access_miss st pc hf]
      simp only
      rw [getD_set_self _ _ _ _ (by rw [hwf.2.2.2.1]; exact hsi)]
    have hfind : findHit (st'.tag_for pc) (st'.table.getD (st'.set_index pc) [])
        = some (st.nextVictim.getD (st.set_index pc) 0) := by
      rw [htag, hsets, hrow']
      exact findHit_set_of_none _ _ _ hf (by rw [hrow]; exact hv) (by simp)
    rw [get_hit st' pc _ hfind, hsets, hrow',
      getD_set_self _ _ _ _ (by rw [hrow]; exact hv)]

/-- set followed by get on the same pc returns exactly the stored
(uint16-truncated) value. -/
theorem ahrt_set_then_get (st : AHRT) (pc h : Nat) (hwf : st.wf) :
    ((st.set pc h).get pc).1 = h % 2 ^ 16 := by
  have hsi : st.set_index pc < st.sets := set_index_lt st pc hwf.2.1 hwf.2.2.1
  cases hf : findHit (st.tag_for pc) (st.table.getD (st.set_index pc) []) with
  | some w =>
    have hwlt : w < (st.table.getD (st.set_index pc) []).length := findHit_some_lt hf
    set row := st.table.getD (st.set_index pc) [] with hrowdef
    set ew : AHRTEntry := { row.getD w e0 with history := h % 2 ^ 16 } with hew
    set st2 : AHRT :=
      { st with table := st.table.set (st.set_index pc) (row.set w ew) } with hst2
    have hset : st.set pc h = st2 := by
      unfold AHRT.set
      rw [access_hit st pc w hf]
    rw [hset]
    have hsets2 : st2.set_index pc = st.set_index pc := rfl
    have htag2 : st2.tag_for pc = st.tag_for pc := rfl
    have hrow2 : st2.table.getD (st.set_index pc) []
        = (st.table.getD (st.set_index pc) []).set w ew := by
      rw [hst2]
      simp only
      exact getD_set_self _ _ _ _ (by rw [hwf.2.2.2.1]; exact hsi)
    have hfind2 : findHit (st2.tag_for pc) (st2.table.getD (st2.set_index pc) [])
        = some w := by
      rw [htag2, hsets2, hrow2, findHit_set_preserve _ _ _ (by rw [hew]), hf]
    rw [get_hit st2 pc w hfind2, hsets2, hrow2, getD_set_self _ _ _ _ hwlt]
  | none =>
    have hv : st.nextVictim.getD (st.set_index pc) 0 < st.ways := wf_victim_lt hwf hsi
    have hrow : (st.table.getD (st.set_index pc) []).length = st.ways :=
      wf_row_length hwf hsi
    set v := st.nextVictim.getD (st.set_index pc) 0 with hvdef
    set row := st.table.getD (st.set_index pc) [] with hrowdef
    set e2 : AHRTEntry := { valid := true, tag := st.tag_for pc, history := h % 2 ^ 16 }
      with he2
    have hset : st.set pc h =
        { st with
            table := st.table.set (st.set_index pc) (row.set v e2)
            nextVictim := st.nextVictim.set (st.set_index pc) ((v + 1) % st.ways) } := by
      unfold AHRT.set
      rw [access_miss st pc hf]
      simp only
      rw [getD_set_self _ _ _ _ (by rw [hwf.2.2.2.1]; exact hsi),
        getD_set_self _ _ _ _ (by rw [← hrowdef, hrow]; exact hv), set_set, set_set]
    rw [hset]
    set st2 : AHRT := { st with
      table := st.table.set (st.set_index pc) (row.set v e2)
      nextVictim := st.nextVictim.set (st.set_index pc) ((v + 1) % st.ways) } with hst2
    have hrow2 : st2.table.getD (st.set_index pc) [] = row.set v e2 := by
      rw [hst2]
      simp only
      exact getD_set_self _ _ _ _ (by rw [hwf.2.2.2.1]; exact hsi)
    have hfind2 : findHit (st2.tag_for pc) (st2.table.getD (st2.set_index pc) [])
        = some v := by
      have : st2.tag_for pc = st.tag_for pc := rfl
      rw [this, show st2.set_index pc = st.set_index pc from rfl, hrow2]
      exact findHit_set_of_none _ _ _ hf (by rw [hrow]; exact hv) (by simp [he2])
    rw [get_hit st2 pc v hfind2, show st2.set_index pc = st.set_index pc from rfl,
      hrow2, getD_set_self _ _ _ _ (by rw [hrow]; exact hv)]

theorem lookup_listInsert_self (t : List (Nat × Nat)) (pc v : Nat) :
    (listInsert t pc v).lookup pc = some v := by
  induction t with
  | nil => simp [listInsert, List.lookup]
  | cons x rest ih =>
    by_cases hp : x.1 = pc
    · simp [listInsert, hp, List.lookup]
    · have : (listInsert (x :: rest) pc v) = x :: listInsert rest pc v := by
        cases x with
        | mk a b => simp [listInsert, hp]
      rw [this, List.lookup]
      have hne : (pc == x.1) = false := by
        simp [Ne.symm hp]
      simp only [hne]
      exact ih

theorem listInsert_bound {B : Nat} (t : List (Nat × Nat)) (pc v : Nat)
    (ht : ∀ x ∈ t, x.2 < B) (hv : v < B) :
    ∀ x ∈ listInsert t pc v, x.2 < B := by
  induction t with
  | nil =>
    intro x hx
    simp [listInsert] at hx
    simp [hx, hv]
  | cons a rest ih =>
    intro x hx
    cases a with
    | mk p w =>
      by_cases hp : p = pc
      · simp only [listInsert, if_pos hp] at hx
        rcases List.mem_cons.1 hx with rfl | hx'
        · exact hv
        · exact ht x (List.mem_cons_of_mem _ hx')
      · simp only [listInsert, if_neg hp] at hx
        rcases List.mem_cons.1 hx with rfl | hx'
        · exact ht _ (List.mem_cons_self _ _)
        · exact ih (fun y hy => ht y (List.mem_cons_of_mem _ hy)) x hx'

/-- IHRT set-then-get roundtrip: returns exactly the stored value. -/
theorem ihrt_set_then_get (st : IHRT) (pc h : Nat) :
    (st.set pc h).get pc = h % 2 ^ 16 := by
  unfold IHRT.get IHRT.set
  simp only
  rw [lookup_listInsert_self]

/-- HHRT set-then-get roundtrip (same slot, in bounds). -/
theorem hhrt_set_then_get (st : HHRT) (pc h : Nat)
    (hb : st.index pc < st.hist.length) :
    (st.set pc h).get pc = h % 2 ^ 16 := by
  unfold HHRT.get HHRT.set
  have hidx : ({ st with hist := st.hist.set (st.index pc) (h % 2 ^ 16) } : HHRT).index pc
      = st.index pc := rfl
  simp only [hidx]
  exact getD_set_self _ _ _ _ hb

theorem init_history_lt (k : Nat) : init_history_val k < 2 ^ k := by
  unfold init_history_val
  rcases le_or_lt k 16 with hk | hk
  · have hp : 0 < 2 ^ k := Nat.pos_pow_of_pos k (by norm_num)
    have hle : 2 ^ k ≤ 2 ^ 16 := Nat.pow_le_pow_right (by norm_num) hk
    rw [Nat.mod_eq_of_lt (by omega)]
    omega
  · have h1 : (2 ^ k - 1) % 2 ^ 16 < 2 ^ 16 := Nat.mod_lt _ (by positivity)
    have h2 : (2 : Nat) ^ 16 < 2 ^ k := Nat.pow_lt_pow_right (by norm_num) hk
    omega

/-- The value written back by update is always below 2^k. -/
theorem masked_lt (k x : Nat) : (x &&& ((2 ^ k - 1) % 2 ^ 32)) % 2 ^ 16 < 2 ^ k := by
  rcases le_or_lt k 32 with hk | hk
  · have hp : 0 < 2 ^ k := Nat.pos_pow_of_pos k (by norm_num)
    have hle : 2 ^ k ≤ 2 ^ 32 := Nat.pow_le_pow_right (by norm_num) hk
    have hmeq : (2 ^ k - 1) % 2 ^ 32 = 2 ^ k - 1 := Nat.mod_eq_of_lt (by omega)
    rw [hmeq]
    have h1 : x &&& (2 ^ k - 1) ≤ 2 ^ k - 1 := Nat.and_le_right
    have h2 : (x &&& (2 ^ k - 1)) % 2 ^ 16 ≤ x &&& (2 ^ k - 1) := Nat.mod_le _ _
    omega
  · have h1 : (x &&& ((2 ^ k - 1) % 2 ^ 32)) % 2 ^ 16 < 2 ^ 16 :=
      Nat.mod_lt _ (by positivity)
    have h2 : (2 : Nat) ^ 16 < 2 ^ k := Nat.pow_lt_pow_right (by norm_num) (by omega)
    omega

theorem row_hist_lt {st : AHRT} {B : Nat} (h : st.histLt B) (hB : 0 < B)
    (si v : Nat) : ((st.table.getD si []).getD v e0).history < B := by
  by_cases hsi : si < st.table.length
  · have hrow := getD_mem st.table si [] hsi
    by_cases hv : v < (st.table.getD si []).length
    · exact h.2 _ hrow _ (getD_mem _ _ _ hv)
    · have hd : (st.table.getD si []).getD v e0 = e0 :=
        List.getD_eq_default _ _ (by omega)
      rw [hd]
      simpa [e0] using hB
  · have hrow0 : st.table.getD si ([] : List AHRTEntry) = [] :=
      List.getD_eq_default _ _ (by omega)
    rw [hrow0]
    simpa [e0] using hB

theorem AHRT.histLt_access (st : AHRT) (pc : Nat) {B : Nat} (hB : 0 < B)
    (h : st.histLt B) : (st.access pc).1.histLt B := by
  cases hf : findHit (st.tag_for pc) (st.table.getD (st.set_index pc) []) with
  | some w => rw [access_hit st pc w hf]; exact h
  | none =>
    rw [access_miss st pc hf]
    refine ⟨h.1, ?_⟩
    intro row hrow e he
    rcases mem_of_mem_set hrow with hmem | rfl
    · exact h.2 _ hmem _ he
    · rcases mem_of_mem_set he with hmem2 | rfl
      · by_cases hsi : st.set_index pc < st.table.length
        · exact h.2 _ (getD_mem _ _ _ hsi) _ hmem2
        · rw [List.getD_eq_default _ _ (by omega)] at hmem2
          simp at hmem2
      · exact row_hist_lt h hB _ _

theorem ahrt_histLt_set (st : AHRT) (pc v : Nat) {B : Nat} (hB : 0 < B)
    (h : st.histLt B) (hv : v < B) : (st.set pc v).histLt B := by
  have h1 : (st.access pc).1.histLt B := st.histLt_access pc hB h
  unfold AHRT.set
  refine ⟨h1.1, ?_⟩
  intro row hrow e he
  rcases mem_of_mem_set hrow with hmem | rfl
  · exact h1.2 _ hmem _ he
  · rcases mem_of_mem_set he with hmem2 | rfl
    · by_cases hsi : (st.access pc).2.1 < (st.access pc).1.table.length
      · exact h1.2 _ (getD_mem _ _ _ hsi) _ hmem2
      · rw [List.getD_eq_default _ _ (by omega)] at hmem2
        simp at hmem2
    · simp only
      calc v % 2 ^ 16 ≤ v := Nat.mod_le _ _
        _ < B := hv

theorem HRTState.histLt_get (h : HRTState) (pc : Nat) {B : Nat} (hB : 0 < B)
    (hh : h.histLt B) : (h.get pc).2.histLt B := by
  cases h with
  | ihrt st => exact hh
  | hhrt st => exact hh
  | ahrt st => exact st.histLt_access pc hB hh

theorem hrt_histLt_set (h : HRTState) (pc v : Nat) {B : Nat} (hB : 0 < B)
    (hh : h.histLt B) (hv : v < B) : (h.set pc v).histLt B := by
  cases h with
  | ihrt st =>
    intro x hx
    refine listInsert_bound _ _ _ hh ?_ x hx
    calc v % 2 ^ 16 ≤ v := Nat.mod_le _ _
      _ < B := hv
  | hhrt st =>
    intro x hx
    rcases mem_of_mem_set hx with hmem | rfl
    · exact hh x hmem
    · calc v % 2 ^ 16 ≤ v := Nat.mod_le _ _
        _ < B := hv
  | ahrt st => exact ahrt_histLt_set st pc v hB hh hv

theorem inv_mk (cfg : ATConfig) : (mkPredictor cfg).inv cfg.history_bits := by
  refine ⟨rfl, rfl, ?_⟩
  unfold mkPredictor
  cases cfg.hrt_kind with
  | ihrt =>
    intro x hx
    simp [IHRT.init] at hx
  | hhrt =>
    intro x hx
    simp only [HHRT.init] at hx
    rw [List.eq_of_mem_replicate hx]
    exact init_history_lt _
  | ahrt =>
    refine ⟨init_history_lt _, ?_⟩
    intro row hrow e he
    simp only [AHRT.init] at hrow
    rw [List.eq_of_mem_replicate hrow] at he
    rw [List.eq_of_mem_replicate he]
    exact init_history_lt _

theorem inv_applyEvent (p : Predictor) (ev : Event) {k : Nat}
    (h : p.inv k) : (applyEvent p ev).inv k := by
  obtain ⟨hk, hm, hh⟩ := h
  have hB : 0 < 2 ^ k := Nat.pos_pow_of_pos k (by norm_num)
  cases ev with
  | predictEv pc =>
    exact ⟨hk, hm, p.hrt.histLt_get pc hB hh⟩
  | updateEv pc o =>
    refine ⟨hk, hm, ?_⟩
    have h1 := p.hrt.histLt_get pc hB hh
    have hval :
        ((((p.hrt.get pc).1 <<< 1) ||| (if o = .taken then 1 else 0)) &&& p.mask) % 2 ^ 16
          < 2 ^ k := by
      rw [hm]
      exact masked_lt k _
    exact hrt_histLt_set ((p.hrt.get pc).2) pc _ hB h1 hval

theorem inv_runEvents (evs : List Event) (p : Predictor) {k : Nat}
    (h : p.inv k) : (runEvents p evs).inv k := by
  induction evs generalizing p with
  | nil => exact h
  | cons ev rest ih => exact ih _ (inv_applyEvent p ev h)

theorem predict_pt (p : Predictor) (pc : Nat) : (p.predict pc).2.pt = p.pt := rfl

theorem predict_ihrt (p : Predictor) (pc : Nat) (st : IHRT)
    (h : p.hrt = .ihrt st) : (p.predict pc).2 = p := by
  cases p with
  | mk kb m pt hrt =>
    simp only at h
    subst h
    rfl

theorem predict_hhrt (p : Predictor) (pc : Nat) (st : HHRT)
    (h : p.hrt = .hhrt st) : (p.predict pc).2 = p := by
  cases p with
  | mk kb m pt hrt =>
    simp only at h
    subst h
    rfl

theorem predict_idem_ahrt (p : Predictor) (pc : Nat) (st : AHRT)
    (h : p.hrt = .ahrt st) (hwf : st.wf) :
    (p.predict pc).2.predict pc = ((p.predict pc).1, (p.predict pc).2) := by
  cases p with
  | mk kb m pt hrt =>
    simp only at h
    subst h
    have hid := get_idem st pc hwf
    simp only [Predictor.predict, HRTState.get]
    have h1 : ((st.get pc).2.get pc).1 = (st.get pc).1 := by rw [hid]
    have h2 : ((st.get pc).2.get pc).2 = (st.get pc).2 := by rw [hid]
    rw [h1, h2]

/-- C2 counterexample: constructing with invalid parameters does NOT
fail — an entry count not divisible by the way count is silently
truncated (sets = 6/4 = 1 while capacity still reports 6), a
non-power-of-two or zero entry count yields a silently wrapped or
non-power-of-two mask, and the resulting tables operate normally. -/
theorem C2_cex :
    6 % 4 ≠ 0 ∧ (AHRT.init 6 4 12).sets = 1 ∧
    (AHRT.init 6 4 12).capacity_entries = 6 ∧
    (¬ ∃ b < 32, (3 : Nat) = 2 ^ b) ∧ (HHRT.init 3 12).mask = 2 ∧
    ((HHRT.init 3 12).set 4 1).get 4 = 1 ∧
    (HHRT.init 0 12).mask = 4294967295 := by
  decide

/-- C2 (amended): the table constructors perform no parameter
validation and never fail; for every parameter combination they return
a fully-built table with sets = entries / ways (truncating division),
capacity_entries = entries, and the direct-mapped mask computed as the
uint32 cast of entries - 1. -/
theorem C2_construction_total (e w k : Nat) :
    (AHRT.init e w k).sets = e / w ∧
    (AHRT.init e w k).table.length = e / w ∧
    (AHRT.init e w k).nextVictim.length = e / w ∧
    (AHRT.init e w k).capacity_entries = e ∧
    (HHRT.init e k).hist.length = e ∧
    (HHRT.init e k).mask = ((e + 2 ^ 32) - 1) % 2 ^ 32 ∧
    (HHRT.init e k).capacity_entries = e := by
  refine ⟨rfl, ?_, ?_, rfl, ?_, rfl, rfl⟩
  · simp [AHRT.init]
  · simp [AHRT.init]
  · simp [HHRT.init]

/-- C3 counterexample: after the four events the stored history for A
is 0b01 = 1, not 0b10 = 2 as claimed. -/
theorem C3_cex :
    (runC3.1.hrt.get 64).1 = 1 ∧ (runC3.1.hrt.get 64).1 ≠ 2 := by
  decide

/-- C3 (amended): the Exhaustive k=2 Counter predictor on
(A,T),(A,T),(A,N),(A,T) predicts Taken four times, tallies 4 total and
3 correct, and finishes with history 0b01 stored for A (0b10 is the
history just before the final update, i.e. the index at which the final
pattern-table update occurred, leaving the pattern table at
[3,3,3,2]). -/
theorem C3_end_to_end :
    runC3.2.2 = [true, true, true, true] ∧
    runC3.2.1.total = 4 ∧ runC3.2.1.correct = 3 ∧
    (runC3.1.hrt.get 64).1 = 1 ∧
    (runC3pre.1.hrt.get 64).1 = 2 ∧
    runC3.1.pt.entries = [3, 3, 3, 2] := by
  decide

/-- C9 counterexample: accuracy is 0 for total = 1, correct = 0, so
accuracy does not equal 0 exactly when total = 0. -/
theorem C9_cex :
    (Stats.mk 1 0).accuracy = 0 ∧ (Stats.mk 1 0).total ≠ 0 := by
  constructor
  · unfold Stats.accuracy
    norm_num
  · decide

/-- C9 (amended): for counters with correct ≤ total, accuracy lies in
[0,1], the total = 0 case is guarded (returning 0, never dividing by
zero), and accuracy = 0 exactly when total = 0 or correct = 0. -/
theorem C9_accuracy (s : Stats) (h : s.correct ≤ s.total) :
    0 ≤ s.accuracy ∧ s.accuracy ≤ 1 ∧
    (s.total = 0 → s.accuracy = 0) ∧
    (s.accuracy = 0 ↔ s.total = 0 ∨ s.correct = 0) := by
  unfold Stats.accuracy
  by_cases ht : s.total = 0
  · simp [ht]
  · have htpos : 0 < (s.total : ℚ) := by
      exact_mod_cast Nat.pos_of_ne_zero ht
    rw [if_neg ht]
    refine ⟨div_nonneg (by positivity) (le_of_lt htpos), ?_, ?_, ?_⟩
    · rw [div_le_one htpos]
      exact_mod_cast h
    · intro h0
      exact absurd h0 ht
    · rw [div_eq_zero_iff]
      constructor
      · rintro (hc | ht0)
        · right
          exact_mod_cast hc
        · exact absurd (by exact_mod_cast ht0) ht
      · rintro (ht0 | hc0)
        · exact absurd ht0 ht
        · left
          exact_mod_cast hc0

/-- Witness for C9: the amended accuracy properties instantiated at
total = 4, correct = 3. -/
theorem C9_accuracy_wit :
    0 ≤ (Stats.mk 4 3).accuracy ∧ (Stats.mk 4 3).accuracy ≤ 1 ∧
    ((Stats.mk 4 3).total = 0 → (Stats.mk 4 3).accuracy = 0) ∧
    ((Stats.mk 4 3).accuracy = 0 ↔
      (Stats.mk 4 3).total = 0 ∨ (Stats.mk 4 3).correct = 0) :=
  C9_accuracy ⟨4, 3⟩ (by norm_num)

/-- C10: for every k between 1 and 31 and every 16-bit history, the
pattern table holds exactly 2^k entries and the index accessed by
predict and update is strictly below that size, so both operations stay
in bounds. -/
theorem C10_pt_in_bounds (k : Nat) (a : AutomatonType) (h : Nat)
    (hk1 : 1 ≤ k) (hk : k ≤ 31) (hh : h < 2 ^ 16) :
    (PatternTable.init k a).num_entries = 2 ^ k ∧
    (PatternTable.init k a).index h < (PatternTable.init k a).num_entries := by
  have hpos : 0 < (2 : Nat) ^ k := Nat.pos_pow_of_pos k (by norm_num)
  have hlt32 : (2 : Nat) ^ k < 2 ^ 32 := Nat.pow_lt_pow_right (by norm_num) (by omega)
  have hlen : (PatternTable.init k a).num_entries = 2 ^ k := by
    unfold PatternTable.num_entries PatternTable.init
    simp only [List.length_replicate]
    exact Nat.mod_eq_of_lt hlt32
  refine ⟨hlen, ?_⟩
  rw [hlen]
  unfold PatternTable.index PatternTable.init
  simp only
  have hmeq : (2 ^ k - 1) % 2 ^ 32 = 2 ^ k - 1 := Nat.mod_eq_of_lt (by omega)
  rw [hmeq]
  have hle : (h % 2 ^ 16) &&& (2 ^ k - 1) ≤ 2 ^ k - 1 := Nat.and_le_right
  omega

/-- Witness for C10: instantiated at k = 12, the A2 automaton and
history 0xFFFF. -/
theorem C10_pt_in_bounds_wit :
    (PatternTable.init 12 .a2).num_entries = 2 ^ 12 ∧
    (PatternTable.init 12 .a2).index 65535 < (PatternTable.init 12 .a2).num_entries :=
  C10_pt_in_bounds 12 .a2 65535 (by norm_num) (by norm_num) (by norm_num)

/-- C5: update applies the pattern-table transition at the pre-shift
history — exactly the value the history table's get returns before any
shifting — and then writes ((old history << 1) | outcome bit) masked to
k bits back into the history table for that address. -/
theorem C5_update_order (p : Predictor) (pc : Nat) (o : Outcome)
    (hm : p.mask = (2 ^ p.history_bits - 1) % 2 ^ 32)
    (hk : p.history_bits ≤ 16) :
    (p.update pc o).pt = p.pt.update (p.hrt.get pc).1 o ∧
    (p.update pc o).hrt = (p.hrt.get pc).2.set pc
      ((((p.hrt.get pc).1 <<< 1) ||| (if o = .taken then 1 else 0))
        &&& (2 ^ p.history_bits - 1)) := by
  refine ⟨rfl, ?_⟩
  unfold Predictor.update
  simp only
  have hpos : 0 < (2 : Nat) ^ p.history_bits :=
    Nat.pos_pow_of_pos _ (by norm_num)
  have hle16 : (2 : Nat) ^ p.history_bits ≤ 2 ^ 16 :=
    Nat.pow_le_pow_right (by norm_num) hk
  have hlt32 : (2 : Nat) ^ p.history_bits - 1 < 2 ^ 32 := by
    have : (2 : Nat) ^ 16 ≤ 2 ^ 32 := Nat.pow_le_pow_right (by norm_num) (by norm_num)
    omega
  have hand : (((p.hrt.get pc).1 <<< 1) ||| (if o = .taken then 1 else 0))
      &&& (2 ^ p.history_bits - 1) ≤ 2 ^ p.history_bits - 1 := Nat.and_le_right
  rw [hm, Nat.mod_eq_of_lt hlt32, Nat.mod_eq_of_lt (by omega)]

/-- Witness for C5: instantiated at the associative k = 4 configuration,
address 64, outcome Taken. -/
theorem C5_update_order_wit :
    ((mkPredictor cfgC5).update 64 .taken).pt
      = (mkPredictor cfgC5).pt.update ((mkPredictor cfgC5).hrt.get 64).1 .taken ∧
    ((mkPredictor cfgC5).update 64 .taken).hrt
      = ((mkPredictor cfgC5).hrt.get 64).2.set 64
        (((((mkPredictor cfgC5).hrt.get 64).1 <<< 1) ||| 1)
          &&& (2 ^ (mkPredictor cfgC5).history_bits - 1)) :=
  C5_update_order (mkPredictor cfgC5) 64 .taken (by rfl) (by decide)

/-- C6 counterexample: the Exhaustive table stores and returns the set
value verbatim, with no masking to k bits — setting 4 with k = 2
returns 4, not 4 & 0b11 = 0. -/
theorem C6_cex :
    ((IHRT.init 2).set 100 4).get 100 = 4 ∧
    ((IHRT.init 2).set 100 4).get 100
      ≠ 4 &&& (2 ^ (IHRT.init 2).history_bits - 1) := by
  decide

/-- C6 (amended): set immediately followed by get on the same address
returns exactly the value set, truncated to the 16-bit cell width but
NOT masked to k bits — unconditionally for Exhaustive, for a
well-formed Associative table (the set itself installs the line, so the
get hits), and for Hashed with an in-range slot; when the value set
already fits in k bits (k ≤ 16) — as every value written through the
predictor does — the returned value coincides with the k-bit-masked
value. -/
theorem C6_set_get (pc h : Nat) :
    (∀ st : IHRT, (st.set pc h).get pc = h % 2 ^ 16) ∧
    (∀ st : HHRT, st.index pc < st.hist.length →
      (st.set pc h).get pc = h % 2 ^ 16) ∧
    (∀ st : AHRT, st.wf → ((st.set pc h).get pc).1 = h % 2 ^ 16) ∧
    (∀ k, k ≤ 16 → h < 2 ^ k → h % 2 ^ 16 = h &&& (2 ^ k - 1)) := by
  refine ⟨fun st => ihrt_set_then_get st pc h,
    fun st hb => hhrt_set_then_get st pc h hb,
    fun st hwf => ahrt_set_then_get st pc h hwf, ?_⟩
  intro k hk16 hhk
  have hle : (2 : Nat) ^ k ≤ 2 ^ 16 := Nat.pow_le_pow_right (by norm_num) hk16
  rw [Nat.mod_eq_of_lt (by omega), Nat.and_pow_two_sub_one_eq_mod,
    Nat.mod_eq_of_lt hhk]

/-- Witness for C6: set 5 then get at address 8 on each freshly
constructed variant. -/
theorem C6_set_get_wit :
    ((IHRT.init 4).set 8 5).get 8 = 5 % 2 ^ 16 ∧
    ((HHRT.init 4 4).set 8 5).get 8 = 5 % 2 ^ 16 ∧
    (((AHRT.init 8 4 4).set 8 5).get 8).1 = 5 % 2 ^ 16 ∧
    5 % 2 ^ 16 = 5 &&& (2 ^ 4 - 1) :=
  ⟨(C6_set_get 8 5).1 (IHRT.init 4),
    (C6_set_get 8 5).2.1 (HHRT.init 4 4) (by decide),
    (C6_set_get 8 5).2.2.1 (AHRT.init 8 4 4) (by decide),
    (C6_set_get 8 5).2.2.2 4 (by norm_num) (by norm_num)⟩

/-- The constructor establishes the AHRT structural invariants whenever
the geometry is positive. -/
theorem wf_init (e w k : Nat) (hw : 0 < w) (hs : 0 < e / w)
    (h64 : e / w ≤ 2 ^ 64) : (AHRT.init e w k).wf := by
  refine ⟨hw, hs, h64, ?_, ?_, ?_, ?_⟩
  · simp [AHRT.init]
  · simp [AHRT.init]
  · intro row hrow
    simp only [AHRT.init] at hrow
    rw [List.eq_of_mem_replicate hrow]
    simp [AHRT.init]
  · intro v hv
    simp only [AHRT.init] at hv
    rw [List.eq_of_mem_replicate hv]
    exact hw

/-- C7: get never fails and returns the all-ones default: the default
equals 2^k - 1 (for every cell-representable k ≤ 16); the Exhaustive
variant's get on an address absent from the map returns the default
without touching the map (it is a pure read — capacity_entries is a
function of the unchanged state); freshly constructed Hashed and
Associative tables return the default for every address. -/
theorem C7_get_default (k pc : Nat) :
    (k ≤ 16 → init_history_val k = 2 ^ k - 1) ∧
    (∀ st : IHRT, st.table.lookup pc = none → st.get pc = st.init_history) ∧
    ((IHRT.init k).get pc = init_history_val k) ∧
    (∀ e, 0 < e → e ≤ 2 ^ 32 → (HHRT.init e k).get pc = init_history_val k) ∧
    (∀ e w, 0 < w → 0 < e / w → e / w ≤ 2 ^ 64 →
      ((AHRT.init e w k).get pc).1 = init_history_val k) := by
  refine ⟨?_, ?_, rfl, ?_, ?_⟩
  · intro hk
    have hle : (2 : Nat) ^ k ≤ 2 ^ 16 := Nat.pow_le_pow_right (by norm_num) hk
    have hpos : 0 < (2 : Nat) ^ k := Nat.pos_pow_of_pos k (by norm_num)
    unfold init_history_val
    exact Nat.mod_eq_of_lt (by omega)
  · intro st hmiss
    unfold IHRT.get
    rw [hmiss]
  · intro e he he32
    have h32 : (2 : Nat) ^ 32 = 4294967296 := by norm_num
    have hmask : (HHRT.init e k).mask = e - 1 := by
      simp only [HHRT.init]
      omega
    have hidx : (HHRT.init e k).index pc < e := by
      unfold HHRT.index
      rw [hmask]
      have := Nat.and_le_right (n := pc >>> 2) (m := e - 1)
      omega
    unfold HHRT.get
    simp only [HHRT.init]
    exact getD_replicate _ _ _ _ (by simpa [HHRT.init] using hidx)
  · intro e w hw hs h64
    set st := AHRT.init e w k with hst
    have hwf : st.wf := wf_init e w k hw hs h64
    have hsi : st.set_index pc < st.sets := set_index_lt st pc hwf.2.1 hwf.2.2.1
    have hrow : st.table.getD (st.set_index pc) []
        = List.replicate w { valid := false, tag := 0, history := init_history_val k } := by
      rw [hst]
      simp only [AHRT.init]
      exact getD_replicate _ _ _ _ (by simpa [AHRT.init] using hsi)
    have hnone : findHit (st.tag_for pc) (st.table.getD (st.set_index pc) []) = none := by
      rw [hrow]
      refine findHit_none_of_invalid ?_
      intro x hx
      rw [List.eq_of_mem_replicate hx]
    have hv0 : st.nextVictim.getD (st.set_index pc) 0 = 0 := by
      rw [hst]
      simp only [AHRT.init]
      exact getD_replicate _ _ _ _ (by simpa [AHRT.init] using hsi)
    rw [get_miss st pc hwf hnone]
    simp only
    rw [hv0, hrow, getD_replicate _ _ _ _ hw]

/-- Witness for C7: k = 12, address 64, table sizes as in the shipped
configurations. -/
theorem C7_get_default_wit :
    init_history_val 12 = 2 ^ 12 - 1 ∧
    (IHRT.init 12).get 64 = init_history_val 12 ∧
    (HHRT.init 256 12).get 64 = init_history_val 12 ∧
    ((AHRT.init 256 4 12).get 64).1 = init_history_val 12 :=
  ⟨(C7_get_default 12 64).1 (by norm_num),
    (C7_get_default 12 64).2.2.1,
    (C7_get_default 12 64).2.2.2.1 256 (by norm_num) (by norm_num),
    (C7_get_default 12 64).2.2.2.2 256 4 (by norm_num) (by norm_num) (by norm_num)⟩

/-- C1 counterexample: on the associative discipline, a single predict
on a fresh table mutates predictor state — it installs the missing line
and advances the round-robin cursor of set 0 from 0 to 1. -/
theorem C1_cex :
    ((mkPredictor cfgC1).predict 0).2 ≠ mkPredictor cfgC1 ∧
    (ahrtOf ((mkPredictor cfgC1).predict 0).2.hrt).map AHRT.nextVictim = some [1] ∧
    (ahrtOf (mkPredictor cfgC1).hrt).map AHRT.nextVictim = some [0] := by
  decide

/-- C1 (amended): predict never touches the pattern table; for the
Exhaustive and Hashed disciplines it leaves the whole state unchanged;
for a well-formed Associative table predict never changes any stored
history value, and although a missing predict installs the line (valid
bit, tag) and advances that set's cursor, repeated predicts with no
intervening update return the same result and leave the state of the
first predict unchanged. -/
theorem C1_predict_frame (p : Predictor) (pc : Nat) :
    (p.predict pc).2.pt = p.pt ∧
    (∀ st, p.hrt = .ihrt st → (p.predict pc).2 = p) ∧
    (∀ st, p.hrt = .hhrt st → (p.predict pc).2 = p) ∧
    (∀ st, p.hrt = .ahrt st → st.wf →
      (p.predict pc).2.hrt = .ahrt (st.get pc).2 ∧
      (∀ s w, (((st.get pc).2.table.getD s []).getD w e0).history
          = ((st.table.getD s []).getD w e0).history) ∧
      (p.predict pc).2.predict pc = ((p.predict pc).1, (p.predict pc).2)) := by
  refine ⟨rfl, fun st h => predict_ihrt p pc st h,
    fun st h => predict_hhrt p pc st h, ?_⟩
  intro st h hwf
  refine ⟨?_, ?_, predict_idem_ahrt p pc st h hwf⟩
  · cases p with
    | mk kb m pt hrt =>
      simp only at h
      subst h
      rfl
  · intro s w
    have hsnd : (st.get pc).2 = (st.access pc).1 := rfl
    rw [hsnd]
    exact access_history st pc hwf s w

/-- Witness for C1: the amended frame conditions instantiated on the
cfgC1 associative predictor at address 8. -/
theorem C1_predict_frame_wit :
    ((mkPredictor cfgC1).predict 8).2.pt = (mkPredictor cfgC1).pt ∧
    ((mkPredictor cfgC1).predict 8).2.predict 8
      = (((mkPredictor cfgC1).predict 8).1, ((mkPredictor cfgC1).predict 8).2) :=
  ⟨(C1_predict_frame (mkPredictor cfgC1) 8).1,
    ((C1_predict_frame (mkPredictor cfgC1) 8).2.2.2 (AHRT.init 4 4 2) rfl
      (by decide)).2.2⟩

/-- C4: on a well-formed associative table, an access that misses
resolves to the victim way named by the set's round-robin cursor,
advances that cursor (and no other) by one modulo W, marks the victim
valid with the new tag while leaving its history value unchanged, and
touches no other line; consequently, inserting W+1 = 5 distinct
addresses into the same 4-way set evicts exactly the round-robin victim
(the first-installed line) and the 5th address's first get returns the
evicted line's history value 1 unchanged. -/
theorem C4_miss_round_robin :
    (∀ (st : AHRT) (pc : Nat), st.wf →
      findHit (st.tag_for pc) (st.table.getD (st.set_index pc) []) = none →
      (st.access pc).2.1 = st.set_index pc ∧
      (st.access pc).2.2 = st.nextVictim.getD (st.set_index pc) 0 ∧
      (st.access pc).1.nextVictim.getD (st.set_index pc) 0
        = (st.nextVictim.getD (st.set_index pc) 0 + 1) % st.ways ∧
      (∀ s, s ≠ st.set_index pc →
        (st.access pc).1.nextVictim.getD s 0 = st.nextVictim.getD s 0) ∧
      ((st.access pc).1.table.getD (st.set_index pc) []).getD
          (st.nextVictim.getD (st.set_index pc) 0) e0
        = { valid := true, tag := st.tag_for pc,
            history := ((st.table.getD (st.set_index pc) []).getD
              (st.nextVictim.getD (st.set_index pc) 0) e0).history } ∧
      (∀ j, j ≠ st.nextVictim.getD (st.set_index pc) 0 →
        ((st.access pc).1.table.getD (st.set_index pc) []).getD j e0
          = (st.table.getD (st.set_index pc) []).getD j e0) ∧
      (∀ s, s ≠ st.set_index pc →
        (st.access pc).1.table.getD s [] = st.table.getD s [])) ∧
    ((stC4.get 32).1 = 1 ∧
      stC4.table = [[⟨true, 0, 1⟩, ⟨true, 1, 2⟩, ⟨true, 2, 3⟩, ⟨true, 3, 4⟩],
        List.replicate 4 ⟨false, 0, 15⟩] ∧
      stC4.nextVictim = [0, 0] ∧
      (stC4.get 32).2.table = [[⟨true, 4, 1⟩, ⟨true, 1, 2⟩, ⟨true, 2, 3⟩, ⟨true, 3, 4⟩],
        List.replicate 4 ⟨false, 0, 15⟩] ∧
      (stC4.get 32).2.nextVictim = [1, 0]) := by
  constructor
  · intro st pc hwf hmiss
    have hsi : st.set_index pc < st.sets := set_index_lt st pc hwf.2.1 hwf.2.2.1
    have hv : st.nextVictim.getD (st.set_index pc) 0 < st.ways := wf_victim_lt hwf hsi
    have hrow : (st.table.getD (st.set_index pc) []).length = st.ways :=
      wf_row_length hwf hsi
    have htl : st.set_index pc < st.table.length := by rw [hwf.2.2.2.1]; exact hsi
    have hnl : st.set_index pc < st.nextVictim.length := by rw [hwf.2.2.2.2.1]; exact hsi
    refine ⟨?_, ?_, ?_, ?_, ?_, ?_, ?_⟩
    · rw [access_miss st pc hmiss]
    · rw [access_miss st pc hmiss]
    · rw [access_miss st pc hmiss]
      simp only
      exact getD_set_self _ _ _ _ hnl
    · intro s hs
      rw [access_miss st pc hmiss]
      simp only
      exact getD_set_ne _ _ _ _ _ (fun hc => hs hc.symm)
    · rw [access_miss st pc hmiss]
      simp only
      rw [getD_set_self _ _ _ _ htl,
        getD_set_self _ _ _ _ (by rw [hrow]; exact hv)]
    · intro j hj
      rw [access_miss st pc hmiss]
      simp only
      rw [getD_set_self _ _ _ _ htl]
      exact getD_set_ne _ _ _ _ _ (fun hc => hj hc.symm)
    · intro s hs
      rw [access_miss st pc hmiss]
      simp only
      exact getD_set_ne _ _ _ _ _ (fun hc => hs hc.symm)
  · decide

/-- Witness for C4: the miss behavior instantiated on a fresh 2-set
4-way table at address 0 (set 0, tag 0, all lines invalid). -/
theorem C4_miss_round_robin_wit :
    ((AHRT.init 8 4 4).access 0).2.1 = (AHRT.init 8 4 4).set_index 0 ∧
    ((AHRT.init 8 4 4).access 0).2.2
      = (AHRT.init 8 4 4).nextVictim.getD ((AHRT.init 8 4 4).set_index 0) 0 ∧
    ((AHRT.init 8 4 4).access 0).1.nextVictim.getD ((AHRT.init 8 4 4).set_index 0) 0
      = ((AHRT.init 8 4 4).nextVictim.getD ((AHRT.init 8 4 4).set_index 0) 0 + 1)
          % (AHRT.init 8 4 4).ways :=
  ⟨(C4_miss_round_robin.1 (AHRT.init 8 4 4) 0 (by decide) (by decide)).1,
    (C4_miss_round_robin.1 (AHRT.init 8 4 4) 0 (by decide) (by decide)).2.1,
    (C4_miss_round_robin.1 (AHRT.init 8 4 4) 0 (by decide) (by decide)).2.2.1⟩

/-- C8: for every configuration and every sequence of predict/update
events, every history stored in the history table stays strictly below
2^k; the initial all-ones default equals 2^k - 1 (for every
cell-representable k ≤ 16). -/
theorem C8_history_bound (cfg : ATConfig) (evs : List Event) :
    (runEvents (mkPredictor cfg) evs).hrt.histLt (2 ^ cfg.history_bits) ∧
    (cfg.history_bits ≤ 16 →
      init_history_val cfg.history_bits = 2 ^ cfg.history_bits - 1) := by
  constructor
  · exact (inv_runEvents evs _ (inv_mk cfg)).2.2
  · intro hk
    have hle : (2 : Nat) ^ cfg.history_bits ≤ 2 ^ 16 :=
      Nat.pow_le_pow_right (by norm_num) hk
    have hpos : 0 < (2 : Nat) ^ cfg.history_bits :=
      Nat.pos_pow_of_pos _ (by norm_num)
    unfold init_history_val
    exact Nat.mod_eq_of_lt (by omega)

/-- Witness for C8: the bound instantiated on the hashed k = 3
configuration after a predict and two updates. -/
theorem C8_history_bound_wit :
    (runEvents (mkPredictor cfgC8)
      [.predictEv 4, .updateEv 4 .taken, .updateEv 8 .notTaken]).hrt.histLt
        (2 ^ cfgC8.history_bits) ∧
    (cfgC8.history_bits ≤ 16 →
      init_history_val cfgC8.history_bits = 2 ^ cfgC8.history_bits - 1) :=
  C8_history_bound cfgC8 [.predictEv 4, .updateEv 4 .taken, .updateEv 8 .notTaken]

end BP
